import Mathlib

/-!
Verification development for the jstextfindandreplace library.

The JavaScript source (class TextFindAndReplace together with its data
holder classes) is embedded shallowly: each class becomes a structure,
each static method becomes a Lean function.  The host regular-expression
engine, the literal escaper and the line splitter are external packages;
they are modelled abstractly (an `ExecFn` parameter) or, where a concrete
instance is needed, by executable functions whose doc comments say so.
-/

/-- Class `PartialTextContent`: one searchable block, an absolute offset
plus the block's text. -/
structure PartialTextContent where
  offset : Nat
  textContent : String
deriving Repr, DecidableEq

/-- Class `MatchItem`: a single-keyword match.  The source field `end`
is a Lean keyword, so it is called `endPos` here. -/
structure MatchItem where
  start : Nat
  endPos : Nat
  textContent : String
deriving Repr, DecidableEq

/-- Class `SubMatchItem`: one in-line match in multi-keyword line mode. -/
structure SubMatchItem where
  offset : Nat
  textContent : String
deriving Repr, DecidableEq

/-- Class `LineMatchItem`: a matched line together with its sub-matches. -/
structure LineMatchItem where
  start : Nat
  endPos : Nat
  textContent : String
  subMatchItems : List SubMatchItem
deriving Repr, DecidableEq

/-- Class `ReplaceResult`: the text after replacement and the recomputed
cursor position.  The cursor is an `Int` because the source arithmetic is
plain JavaScript number arithmetic which can go below zero. -/
structure ReplaceResult where
  textContent : String
  cursorPosition : Int
deriving Repr, DecidableEq

/-- JS `s.substring(a, b)`: the characters of `s` with index in `[a, b)`
(for the in-range, ordered arguments the source produces). -/
def jsSubstring (s : String) (a b : Nat) : String :=
  ⟨(s.data.take b).drop a⟩

/-- JS `stringBuffer.join('')`: concatenation of a list of strings. -/
def concatStrs : List String → String
  | [] => ""
  | s :: rest => s ++ concatStrs rest

theorem strLength_append (s t : String) : (s ++ t).length = s.length + t.length := by
  cases s with
  | mk a => cases t with
    | mk b => simp [String.length, String.append]

theorem concatStrs_append (l₁ l₂ : List String) :
    concatStrs (l₁ ++ l₂) = concatStrs l₁ ++ concatStrs l₂ := by
  induction l₁ with
  | nil => simp [concatStrs]
  | cons s rest ih => simp [concatStrs, ih, String.append_assoc]

theorem concatStrs_length (l : List String) :
    (concatStrs l).length = (l.map String.length).sum := by
  induction l with
  | nil => rfl
  | cons s rest ih => simp [concatStrs, strLength_append, ih]

theorem jsSubstring_length (s : String) (a b : Nat) (h₁ : a ≤ b) (h₂ : b ≤ s.length) :
    (jsSubstring s a b).length = b - a := by
  have hb : b ≤ s.data.length := h₂
  show ((s.data.take b).drop a).length = b - a
  rw [List.length_drop, List.length_take]
  omega

theorem jsSubstring_all (s : String) : jsSubstring s 0 s.length = s := by
  cases s with
  | mk a => simp [jsSubstring]

/-- The inner loop of `TextFindAndReplace.replace`: walks the match items
keeping the write cursor `currentOffset` over the original text, the
recomputed cursor `positionAfter` and the output buffer. -/
def replaceAux (textContent replaceText : String) (cursorPosition : Int) :
    List MatchItem → Nat → Int → List String → Nat × Int × List String
  | [], currentOffset, positionAfter, buf => (currentOffset, positionAfter, buf)
  | matchItem :: rest, currentOffset, positionAfter, buf =>
    let matchTextLength := matchItem.endPos - matchItem.start
    let buf1 := if matchItem.start ≠ currentOffset then
        buf ++ [jsSubstring textContent currentOffset matchItem.start] else buf
    let currentOffset1 := if matchItem.start ≠ currentOffset then matchItem.start else currentOffset
    let buf2 := buf1 ++ [replaceText]
    let positionAfter1 := if (currentOffset1 : Int) < cursorPosition then
        positionAfter + ((replaceText.length : Int) - (matchTextLength : Int)) else positionAfter
    replaceAux textContent replaceText cursorPosition rest
      (currentOffset1 + matchTextLength) positionAfter1 buf2

/-- `TextFindAndReplace.replace`: manual replacement of every match item,
with cursor recomputation. -/
def replace (textContent replaceText : String) (matchItems : List MatchItem)
    (cursorPosition : Int) : ReplaceResult :=
  let r := replaceAux textContent replaceText cursorPosition matchItems 0 cursorPosition []
  let buf := if r.1 ≠ textContent.length then
      r.2.2 ++ [jsSubstring textContent r.1 textContent.length] else r.2.2
  ⟨concatStrs buf, r.2.1⟩

theorem replaceAux_cons (textContent replaceText : String) (cursorPosition : Int)
    (matchItem : MatchItem) (rest : List MatchItem)
    (currentOffset : Nat) (positionAfter : Int) (buf : List String) :
    replaceAux textContent replaceText cursorPosition (matchItem :: rest)
      currentOffset positionAfter buf =
    replaceAux textContent replaceText cursorPosition rest
      (matchItem.start + (matchItem.endPos - matchItem.start))
      (if (matchItem.start : Int) < cursorPosition then
        positionAfter + ((replaceText.length : Int) - ((matchItem.endPos - matchItem.start : Nat) : Int))
       else positionAfter)
      ((if matchItem.start ≠ currentOffset then
          buf ++ [jsSubstring textContent currentOffset matchItem.start] else buf) ++ [replaceText]) := by
  by_cases h : matchItem.start = currentOffset
  · simp [replaceAux, h]
  · simp [replaceAux, h]

theorem sum_map_sub {α : Type} (l : List α) (f g : α → Int) :
    (l.map fun x => f x - g x).sum = (l.map f).sum - (l.map g).sum := by
  induction l with
  | nil => simp
  | cons x xs ih => simp [ih]; ring

theorem sum_map_const {α : Type} (l : List α) (r : Int) :
    (l.map fun _ => r).sum = (l.length : Int) * r := by
  induction l with
  | nil => simp
  | cons x xs ih => simp [ih]; ring

theorem sum_map_filter_split {α : Type} (l : List α) (p : α → Bool) (f : α → Int) :
    ((l.filter p).map f).sum + ((l.filter fun x => !(p x)).map f).sum = (l.map f).sum := by
  induction l with
  | nil => simp
  | cons x xs ih =>
    cases hp : p x <;> simp [List.filter_cons, hp] <;> rw [← ih] <;> ring

theorem length_filter_split {α : Type} (l : List α) (p : α → Bool) :
    (l.filter p).length + (l.filter fun x => !(p x)).length = l.length := by
  induction l with
  | nil => simp
  | cons x xs ih =>
    cases hp : p x <;> simp [List.filter_cons, hp] <;> omega

/-- The amount by which `replace` shifts the cursor: the sum, over the
matches starting strictly before the original cursor, of
`length(replacementText) - matchLength`. -/
def cursorShift (replaceText : String) (cursorPosition : Int) (matchItems : List MatchItem) : Int :=
  ((matchItems.filter fun m => (m.start : Int) < cursorPosition).map
    fun m => (replaceText.length : Int) - ((m.endPos : Int) - (m.start : Int))).sum

theorem cursorShift_nil (replaceText : String) (cursorPosition : Int) :
    cursorShift replaceText cursorPosition [] = 0 := rfl

theorem cursorShift_cons (replaceText : String) (cursorPosition : Int)
    (m : MatchItem) (rest : List MatchItem) :
    cursorShift replaceText cursorPosition (m :: rest) =
      (if (m.start : Int) < cursorPosition then
        (replaceText.length : Int) - ((m.endPos : Int) - (m.start : Int)) else 0)
      + cursorShift replaceText cursorPosition rest := by
  simp only [cursorShift, List.filter_cons]
  split
  · simp_all
  · simp_all

theorem replaceAux_pos (textContent replaceText : String) (cursorPosition : Int) :
    ∀ (matchItems : List MatchItem) (currentOffset : Nat) (positionAfter : Int) (buf : List String),
    (∀ m ∈ matchItems, m.start ≤ m.endPos) →
    (replaceAux textContent replaceText cursorPosition matchItems currentOffset positionAfter buf).2.1 =
      positionAfter + cursorShift replaceText cursorPosition matchItems := by
  intro matchItems
  induction matchItems with
  | nil => intro _ _ _ _; simp [replaceAux, cursorShift_nil]
  | cons m rest ih =>
    intro currentOffset positionAfter buf hwf
    rw [replaceAux_cons, ih _ _ _ (fun x hx => hwf x (List.mem_cons_of_mem _ hx)),
      cursorShift_cons]
    have hle : m.start ≤ m.endPos := hwf m (List.mem_cons_self _ _)
    have hcast : ((m.endPos - m.start : Nat) : Int) = (m.endPos : Int) - (m.start : Int) := by
      omega
    split <;> omega

theorem replace_pos (textContent replaceText : String) (matchItems : List MatchItem)
    (cursorPosition : Int) (hwf : ∀ m ∈ matchItems, m.start ≤ m.endPos) :
    (replace textContent replaceText matchItems cursorPosition).cursorPosition =
      cursorPosition + cursorShift replaceText cursorPosition matchItems := by
  show (replaceAux textContent replaceText cursorPosition matchItems 0 cursorPosition []).2.1 = _
  exact replaceAux_pos textContent replaceText cursorPosition matchItems 0 cursorPosition [] hwf

theorem concatStrs_snoc (l : List String) (s : String) :
    (concatStrs (l ++ [s])).length = (concatStrs l).length + s.length := by
  rw [concatStrs_append]
  simp [concatStrs, strLength_append]

theorem replaceAux_cur_le (textContent replaceText : String) (cursorPosition : Int) :
    ∀ (matchItems : List MatchItem) (currentOffset : Nat) (positionAfter : Int) (buf : List String),
    (∀ m ∈ matchItems, m.start ≤ m.endPos ∧ m.endPos ≤ textContent.length) →
    currentOffset ≤ textContent.length →
    (replaceAux textContent replaceText cursorPosition matchItems currentOffset positionAfter buf).1
      ≤ textContent.length := by
  intro matchItems
  induction matchItems with
  | nil => intro _ _ _ _ h; exact h
  | cons m rest ih =>
    intro currentOffset positionAfter buf hwf hcur
    rw [replaceAux_cons]
    apply ih _ _ _ (fun x hx => hwf x (List.mem_cons_of_mem _ hx))
    have := hwf m (List.mem_cons_self _ _)
    omega

theorem replaceAux_len (textContent replaceText : String) (cursorPosition : Int) :
    ∀ (matchItems : List MatchItem) (currentOffset : Nat) (positionAfter : Int) (buf : List String),
    (∀ m ∈ matchItems, currentOffset ≤ m.start ∧ m.start ≤ m.endPos ∧ m.endPos ≤ textContent.length) →
    List.Pairwise (fun a b => a.endPos ≤ b.start) matchItems →
    ((concatStrs (replaceAux textContent replaceText cursorPosition matchItems currentOffset positionAfter buf).2.2).length : Int)
      = ((concatStrs buf).length : Int)
        + (((replaceAux textContent replaceText cursorPosition matchItems currentOffset positionAfter buf).1 : Int)
            - (currentOffset : Int))
        - (matchItems.map fun m => (m.endPos : Int) - (m.start : Int)).sum
        + (replaceText.length : Int) * (matchItems.length : Int) := by
  intro matchItems
  induction matchItems with
  | nil => intro _ _ _ _ _; simp [replaceAux]
  | cons m rest ih =>
    intro currentOffset positionAfter buf hwf hp
    obtain ⟨hc, hse, hen⟩ := hwf m (List.mem_cons_self _ _)
    have hrest : ∀ x ∈ rest, m.start + (m.endPos - m.start) ≤ x.start ∧
        x.start ≤ x.endPos ∧ x.endPos ≤ textContent.length := by
      intro x hx
      have h1 := (List.pairwise_cons.mp hp).1 x hx
      have h2 := hwf x (List.mem_cons_of_mem _ hx)
      omega
    rw [replaceAux_cons]
    rw [ih _ _ _ hrest (List.pairwise_cons.mp hp).2]
    have hbuf : ((concatStrs ((if m.start ≠ currentOffset then
        buf ++ [jsSubstring textContent currentOffset m.start] else buf) ++ [replaceText])).length : Int)
        = ((concatStrs buf).length : Int) + ((m.start : Int) - (currentOffset : Int))
          + (replaceText.length : Int) := by
      by_cases h : m.start = currentOffset
      · simp [h, concatStrs_snoc]
      · rw [if_pos h]
        rw [concatStrs_snoc, concatStrs_snoc,
          jsSubstring_length textContent currentOffset m.start hc (le_trans hse hen)]
        push_cast
        omega
    rw [hbuf]
    simp only [List.map_cons, List.sum_cons, List.length_cons]
    have hcast : ((m.endPos - m.start : Nat) : Int) = (m.endPos : Int) - (m.start : Int) := by
      omega
    push_cast
    rw [hcast]
    ring

theorem replace_len (textContent replaceText : String) (matchItems : List MatchItem)
    (cursorPosition : Int)
    (hp : List.Pairwise (fun a b => a.endPos ≤ b.start) matchItems)
    (hwf : ∀ m ∈ matchItems, m.start ≤ m.endPos ∧ m.endPos ≤ textContent.length) :
    ((replace textContent replaceText matchItems cursorPosition).textContent.length : Int)
      = (textContent.length : Int)
        - (matchItems.map fun m => (m.endPos : Int) - (m.start : Int)).sum
        + (replaceText.length : Int) * (matchItems.length : Int) := by
  have hlen := replaceAux_len textContent replaceText cursorPosition matchItems 0 cursorPosition []
    (fun m hm => ⟨Nat.zero_le _, hwf m hm⟩) hp
  have hcur := replaceAux_cur_le textContent replaceText cursorPosition matchItems 0 cursorPosition []
    hwf (Nat.zero_le _)
  show ((concatStrs (if (replaceAux textContent replaceText cursorPosition matchItems 0 cursorPosition []).1 ≠ textContent.length then _ ++ [_] else _)).length : Int) = _
  by_cases h : (replaceAux textContent replaceText cursorPosition matchItems 0 cursorPosition []).1 = textContent.length
  · rw [if_neg (by simpa using h)]
    rw [hlen]
    simp [concatStrs, h]
  · rw [if_pos (by simpa using h)]
    rw [concatStrs_snoc,
      jsSubstring_length textContent _ textContent.length hcur (le_refl _)]
    push_cast
    rw [hlen]
    simp [concatStrs]
    omega

theorem sum_lens_le (n : Int) :
    ∀ (matchItems : List MatchItem) (c : Int),
    List.Pairwise (fun a b => a.endPos ≤ b.start) matchItems →
    (∀ m ∈ matchItems, (m.start : Int) ≤ (m.endPos : Int) ∧ (m.endPos : Int) ≤ n) →
    (∀ m ∈ matchItems, c ≤ (m.start : Int)) → c ≤ n →
    (matchItems.map fun m => (m.endPos : Int) - (m.start : Int)).sum ≤ n - c := by
  intro matchItems
  induction matchItems with
  | nil => intro c _ _ _ hcn; simp; omega
  | cons m rest ih =>
    intro c hp hb hs hcn
    obtain ⟨hse, hen⟩ := hb m (List.mem_cons_self _ _)
    have hrest := ih (m.endPos : Int) (List.pairwise_cons.mp hp).2
      (fun x hx => hb x (List.mem_cons_of_mem _ hx))
      (fun x hx => by exact_mod_cast Int.ofNat_le.mpr ((List.pairwise_cons.mp hp).1 x hx))
      hen
    have hc := hs m (List.mem_cons_self _ _)
    simp only [List.map_cons, List.sum_cons]
    omega

/-- C6: under non-overlapping, ascending, in-bounds match items, the length
of `replace(T, R, M, c).textContent` equals
`length(T) - sum(matchLengths) + length(R) * count(M)`; with an empty match
list, `replace` returns the text and the cursor unchanged. -/
theorem C6_replace_length_and_empty :
    (∀ (textContent replaceText : String) (matchItems : List MatchItem) (cursorPosition : Int),
      List.Pairwise (fun a b => a.endPos ≤ b.start) matchItems →
      (∀ m ∈ matchItems, m.start ≤ m.endPos ∧ m.endPos ≤ textContent.length) →
      ((replace textContent replaceText matchItems cursorPosition).textContent.length : Int)
        = (textContent.length : Int)
          - (matchItems.map fun m => (m.endPos : Int) - (m.start : Int)).sum
          + (replaceText.length : Int) * (matchItems.length : Int))
    ∧ ∀ (textContent replaceText : String) (cursorPosition : Int),
        replace textContent replaceText [] cursorPosition =
          ⟨textContent, cursorPosition⟩ := by
  constructor
  · intro textContent replaceText matchItems cursorPosition hp hwf
    exact replace_len textContent replaceText matchItems cursorPosition hp hwf
  · intro textContent replaceText cursorPosition
    by_cases h : textContent.length = 0
    · have hT : textContent = "" := by
        cases textContent with
        | mk d =>
          cases d with
          | nil => rfl
          | cons a as => simp [String.length] at h
      subst hT
      simp [replace, replaceAux, concatStrs]
    · simp only [replace, replaceAux]
      rw [if_pos (by simpa using Ne.symm h)]
      simp [concatStrs, jsSubstring_all]

/-- C6 witness: the length equation evaluated at a concrete input. -/
theorem C6_replace_length_and_empty_witness :
    ((replace "abc" "ZZ" [⟨1, 2, "b"⟩] 0).textContent.length : Int)
      = (("abc" : String).length : Int)
        - (([⟨1, 2, "b"⟩] : List MatchItem).map fun m => (m.endPos : Int) - (m.start : Int)).sum
        + (("ZZ" : String).length : Int) * (([⟨1, 2, "b"⟩] : List MatchItem).length : Int) :=
  C6_replace_length_and_empty.1 "abc" "ZZ" [⟨1, 2, "b"⟩] 0 (by simp) (by decide)

/-- C7: the cursor returned by `replace` is the original cursor plus, for
each match whose start is strictly before it, `length(replacementText) -
matchLength`; matches starting at or after the cursor contribute nothing.
In particular a 3-character match strictly before the cursor replaced by a
5-character string moves the cursor forward by exactly 2, and a
replacement strictly after the cursor leaves it unchanged. -/
theorem C7_replace_cursor_adjustment :
    (∀ (textContent replaceText : String) (matchItems : List MatchItem) (cursorPosition : Int),
      (∀ m ∈ matchItems, m.start ≤ m.endPos) →
      (replace textContent replaceText matchItems cursorPosition).cursorPosition =
        cursorPosition + cursorShift replaceText cursorPosition matchItems)
    ∧ (replace "abcdefgh" "12345" [⟨1, 4, "bcd"⟩] 6).cursorPosition = 6 + 2
    ∧ (replace "abcdefgh" "12345" [⟨6, 8, "gh"⟩] 3).cursorPosition = 3 := by
  refine ⟨?_, by decide, by decide⟩
  intro textContent replaceText matchItems cursorPosition hwf
  exact replace_pos textContent replaceText matchItems cursorPosition hwf

/-- C7 witness: the cursor formula evaluated at a concrete input. -/
theorem C7_replace_cursor_adjustment_witness :
    (replace "ab" "XYZ" [⟨0, 1, "a"⟩] 2).cursorPosition =
      2 + cursorShift "XYZ" 2 [⟨0, 1, "a"⟩] :=
  C7_replace_cursor_adjustment.1 "ab" "XYZ" [⟨0, 1, "a"⟩] 2 (by simp)

/-- C2 counterexample: replacing the whole 5-character text by the empty
string with the cursor at 3 yields cursor position -2, so the claimed
invariant `0 <= cursorPosition` fails even though the match list is
sorted, non-overlapping, in bounds, and `0 <= c <= length(T)`. -/
theorem C2_cex_negative_cursor :
    (replace "abcde" "" [⟨0, 5, "abcde"⟩] 3).cursorPosition = -2 ∧
    ¬ (0 ≤ (replace "abcde" "" [⟨0, 5, "abcde"⟩] 3).cursorPosition) := by
  constructor
  · decide
  · decide

/-- C2 (amended): under the claim's hypotheses the upper bound
`cursorPosition <= length(textContent)` of the Replace Result does hold;
the lower bound `0 <= cursorPosition` does not (see the counterexample). -/
theorem C2_replace_cursor_le_length
    (textContent replaceText : String) (matchItems : List MatchItem) (cursorPosition : Int)
    (h0 : 0 ≤ cursorPosition) (hcn : cursorPosition ≤ (textContent.length : Int))
    (hp : List.Pairwise (fun a b => a.endPos ≤ b.start) matchItems)
    (hwf : ∀ m ∈ matchItems, m.start ≤ m.endPos ∧ m.endPos ≤ textContent.length) :
    (replace textContent replaceText matchItems cursorPosition).cursorPosition
      ≤ ((replace textContent replaceText matchItems cursorPosition).textContent.length : Int) := by
  rw [replace_pos textContent replaceText matchItems cursorPosition (fun m hm => (hwf m hm).1),
    replace_len textContent replaceText matchItems cursorPosition hp hwf]
  unfold cursorShift
  have hsum1 : ((matchItems.filter fun m => (m.start : Int) < cursorPosition).map
      fun m => (replaceText.length : Int) - ((m.endPos : Int) - (m.start : Int))).sum
      = (((matchItems.filter fun m => (m.start : Int) < cursorPosition).length : Int)
          * (replaceText.length : Int))
        - ((matchItems.filter fun m => (m.start : Int) < cursorPosition).map
            fun m => (m.endPos : Int) - (m.start : Int)).sum := by
    rw [sum_map_sub (matchItems.filter fun m => (m.start : Int) < cursorPosition)
      (fun _ => (replaceText.length : Int)) (fun m => (m.endPos : Int) - (m.start : Int)),
      sum_map_const]
  have hsplitS := sum_map_filter_split matchItems
    (fun m => decide ((m.start : Int) < cursorPosition))
    (fun m => (m.endPos : Int) - (m.start : Int))
  have hsplitK := length_filter_split matchItems
    (fun m => decide ((m.start : Int) < cursorPosition))
  have hS2 : ((matchItems.filter fun m => !(decide ((m.start : Int) < cursorPosition))).map
      fun m => (m.endPos : Int) - (m.start : Int)).sum
      ≤ (textContent.length : Int) - cursorPosition := by
    apply sum_lens_le (textContent.length : Int) _ cursorPosition
      (List.Pairwise.filter _ hp)
    · intro m hm
      have := hwf m (List.mem_of_mem_filter hm)
      constructor <;> omega
    · intro m hm
      have := (List.mem_filter.mp hm).2
      simp at this
      omega
    · exact hcn
  have hk2 : (0 : Int) ≤ ((matchItems.filter fun m =>
      !(decide ((m.start : Int) < cursorPosition))).length : Int) * (replaceText.length : Int) := by
    positivity
  rw [hsum1]
  have hkcast : ((matchItems.length : Int))
      = ((matchItems.filter fun m => decide ((m.start : Int) < cursorPosition)).length : Int)
        + ((matchItems.filter fun m => !(decide ((m.start : Int) < cursorPosition))).length : Int) := by
    exact_mod_cast hsplitK.symm
  rw [hkcast]
  nlinarith [hsplitS, hS2, hk2]

/-- C2 witness: the amended upper bound evaluated at a concrete input. -/
theorem C2_replace_cursor_le_length_witness :
    (replace "abcde" "" [⟨0, 5, "abcde"⟩] 3).cursorPosition
      ≤ (((replace "abcde" "" [⟨0, 5, "abcde"⟩] 3).textContent.length : Nat) : Int) :=
  C2_replace_cursor_le_length "abcde" "" [⟨0, 5, "abcde"⟩] 3 (by decide) (by decide)
    (by simp) (by decide)

/-- The behaviour of a compiled host regular expression with the `g` flag:
given the text and the current scan position (`lastIndex`), `exec` either
fails or reports the match start index and the matched substring; the
caller then continues from `index + matched.length`.  The host engine is
external to the repository, so it is kept abstract. -/
abbrev ExecFn := String → Nat → Option (Nat × String)

/-- Well-formedness of a host regex `exec`: a reported match starts at or
after the scan position and lies inside the text. -/
def wfExec (exec : ExecFn) : Prop :=
  ∀ (text : String) (i idx : Nat) (m : String),
    exec text i = some (idx, m) → i ≤ idx ∧ idx + m.length ≤ text.length

/-- The `while (match !== null)` scan loop shared (textually duplicated in
the source) by `TextFindAndReplace.find` and
`TextFindAndReplace.findMultipleKeywords`: `lastPosition` is the previous
match index (initially -1), `lastIndex` the scan position, `mkItem` builds
the result item from a match index and matched text.  `none` models the
`return []` taken when the same match index is seen twice (the
non-termination guard).  Callers pass fuel `textContent.length + 2`, which
the well-formedness of the engine makes sufficient (see the
fuel-independence theorem). -/
def gScanLoop {α : Type} (exec : ExecFn) (textContent : String) (mkItem : Nat → String → α)
    (maxMatchLimit : Nat) : Nat → List α → Int → Nat → Option (List α)
  | 0, items, _, _ => some items
  | fuel + 1, items, lastPosition, lastIndex =>
    match exec textContent lastIndex with
    | none => some items
    | some (idx, m) =>
      if (idx : Int) = lastPosition then none
      else
        let items1 := items ++ [mkItem idx m]
        if 0 < maxMatchLimit ∧ maxMatchLimit ≤ items1.length then some items1
        else gScanLoop exec textContent mkItem maxMatchLimit fuel items1
          (idx : Int) (idx + m.length)

/-- The inner loop of `TextFindAndReplace.find` over one block: each match
becomes a `MatchItem` whose block-relative index is made absolute by
adding the block offset. -/
def scanBlockLoop (exec : ExecFn) (textContent : String) (offset maxMatchLimit : Nat) :
    Nat → List MatchItem → Int → Nat → Option (List MatchItem) :=
  gScanLoop exec textContent
    (fun idx m => ⟨idx + offset, idx + offset + m.length, m⟩) maxMatchLimit

/-- The block loop of `TextFindAndReplace.find`: resets the scan cursor
for each block, stops early on the match cap, and propagates the guard's
`return []` as `none`. -/
def findBlocks (exec : ExecFn) (maxMatchLimit : Nat) :
    List PartialTextContent → List MatchItem → Option (List MatchItem)
  | [], matchItems => some matchItems
  | b :: bs, matchItems =>
    if 0 < maxMatchLimit ∧ maxMatchLimit ≤ matchItems.length then some matchItems
    else
      match scanBlockLoop exec b.textContent b.offset maxMatchLimit
          (b.textContent.length + 2) matchItems (-1) 0 with
      | none => none
      | some matchItems1 => findBlocks exec maxMatchLimit bs matchItems1

/-- The scanning core of `TextFindAndReplace.find`, after the keyword has
been compiled to `exec`. -/
def findScan (exec : ExecFn) (blocks : List PartialTextContent) (maxMatchLimit : Nat) :
    List MatchItem :=
  match findBlocks exec maxMatchLimit blocks [] with
  | none => []
  | some matchItems => matchItems

/-- Characters that need escaping inside a regular-expression literal. -/
def regexMetaChars : List Char :=
  ['\\', '^', '$', '.', '*', '+', '?', '(', ')', '[', ']', '\x7b', '\x7d', '|', '/']

/-- Modelled from the spec: the external literal escaper
(`StringUtils.escapeRegularExpress` from the jsstringutils package, which
is not part of this repository) — "given an arbitrary string, returns a
pattern fragment that matches that string literally", here by
backslash-escaping the metacharacters. -/
def escapeRegularExpress (s : String) : String :=
  ⟨s.data.foldr (fun c acc => (if c ∈ regexMetaChars then ['\\', c] else [c]) ++ acc) []⟩

/-- The pattern string built by `TextFindAndReplace.buildFindTextRegex`:
the keyword is escaped and optionally word-boundary wrapped only in the
non-regex branch. -/
def buildFindTextRegexPattern (keyword : String) (isWholeWord isRegularExpression : Bool) :
    String :=
  if isRegularExpression then keyword
  else
    let pattern := escapeRegularExpress keyword
    if isWholeWord then "\\b" ++ pattern ++ "\\b" else pattern

/-- The flags string built by `TextFindAndReplace.buildFindTextRegex`:
`'gm'`, plus `'i'` when not case sensitive. -/
def buildFindTextRegexFlags (isCaseSensitive : Bool) : String :=
  if isCaseSensitive then "gm" else "gmi"

/-- `TextFindAndReplace.buildFindTextRegex`: builds the pattern and flag
strings and hands them to the host engine (`new RegExp`, abstracted as
`engine`; `none` models the SyntaxError branch returning undefined). -/
def buildFindTextRegex (engine : String → String → Option ExecFn)
    (keyword : String) (isCaseSensitive isWholeWord isRegularExpression : Bool) :
    Option ExecFn :=
  engine (buildFindTextRegexPattern keyword isWholeWord isRegularExpression)
    (buildFindTextRegexFlags isCaseSensitive)

/-- `TextFindAndReplace.find`, parametrised by the host regex engine. -/
def find (engine : String → String → Option ExecFn) (blocks : List PartialTextContent)
    (keyword : String) (isCaseSensitive isWholeWord isRegularExpression : Bool)
    (maxMatchLimit : Nat) : Except String (List MatchItem) :=
  if keyword = "" then .error "The keyword cannot be empty."
  else
    match buildFindTextRegex engine keyword isCaseSensitive isWholeWord isRegularExpression with
    | none => .ok []
    | some exec => .ok (findScan exec blocks maxMatchLimit)

/-- C1 counterexample: with `isRegex = true` and `wholeWord = true` the
pattern built for keyword "a" is "a" itself, not wrapped in word-boundary
anchors — the wholeWord wrap lives only in the non-regex branch. -/
theorem C1_cex_wholeWord_ignored_for_regex :
    buildFindTextRegexPattern "a" true true = "a" ∧
    buildFindTextRegexPattern "a" true true ≠ "\\b" ++ "a" ++ "\\b" := by
  exact ⟨rfl, by decide⟩

/-- C1 (amended): when `isRegex` is true the keyword is used verbatim as
the whole pattern and the `wholeWord` flag is ignored: no word-boundary
wrapping is applied, and the compiled regex does not depend on
`wholeWord`. -/
theorem C1_regex_keyword_verbatim (engine : String → String → Option ExecFn)
    (keyword : String) (isCaseSensitive isWholeWord : Bool) :
    buildFindTextRegexPattern keyword isWholeWord true = keyword ∧
    buildFindTextRegex engine keyword isCaseSensitive isWholeWord true =
      engine keyword (buildFindTextRegexFlags isCaseSensitive) := by
  constructor
  · rfl
  · rfl

/-- The per-pattern inner loop of
`TextFindAndReplace.findMultipleKeywords`: each match becomes a
`SubMatchItem` whose line-relative index is made absolute by adding
`extraOffset`. -/
def fmkPatternLoop (exec : ExecFn) (textContent : String) (extraOffset maxMatchLimit : Nat) :
    Nat → List SubMatchItem → Int → Nat → Option (List SubMatchItem) :=
  gScanLoop exec textContent (fun idx m => ⟨idx + extraOffset, m⟩) maxMatchLimit

/-- The pattern loop of `TextFindAndReplace.findMultipleKeywords`: AND
semantics — a pattern with no match at all makes the whole call return
the empty sequence (`none`, like a tripped guard). -/
def fmkPatterns (textContent : String) (extraOffset maxMatchLimit : Nat) :
    List ExecFn → List SubMatchItem → Option (List SubMatchItem)
  | [], subMatchItems => some subMatchItems
  | exec :: rest, subMatchItems =>
    match exec textContent 0 with
    | none => none
    | some _ =>
      match fmkPatternLoop exec textContent extraOffset maxMatchLimit
          (textContent.length + 2) subMatchItems (-1) 0 with
      | none => none
      | some subMatchItems1 =>
        fmkPatterns textContent extraOffset maxMatchLimit rest subMatchItems1

/-- Stable insertion of a sub-match item into an offset-sorted list;
models one step of the stable JS `Array.prototype.sort` by offset. -/
def insertByOffset (x : SubMatchItem) : List SubMatchItem → List SubMatchItem
  | [] => [x]
  | y :: ys => if x.offset ≤ y.offset then x :: y :: ys else y :: insertByOffset x ys

/-- The stable JS sort `subMatchItems.sort((l, r) => l.offset - r.offset)`. -/
def sortByOffset : List SubMatchItem → List SubMatchItem
  | [] => []
  | x :: xs => insertByOffset x (sortByOffset xs)

/-- `TextFindAndReplace.findMultipleKeywords`, parametrised by the
compiled include patterns. -/
def findMultipleKeywords (textContent : String) (includeRegexies : List ExecFn)
    (extraOffset maxMatchLimit : Nat) : List SubMatchItem :=
  match fmkPatterns textContent extraOffset maxMatchLimit includeRegexies [] with
  | none => []
  | some subMatchItems => sortByOffset subMatchItems

/-- `TextFindAndReplace.isAllKeywordsExcluded`: true iff no exclude
pattern matches anywhere in the text (each pattern scanned once from a
reset cursor). -/
def isAllKeywordsExcluded (textContent : String) (excludeRegexies : List ExecFn) : Bool :=
  excludeRegexies.all fun exec => (exec textContent 0).isNone

/-- A pattern equivalent to "match zero or more of any character"
(the behaviour `new RegExp('[\s\S]*', 'gm')` would have): from any
in-range scan position it matches greedily to the end of the text. -/
def dotStarExec : ExecFn := fun text i =>
  if text.length < i then none else some (i, ⟨text.data.drop i⟩)

def litMatchesAt : List Char → List Char → Bool
  | [], _ => true
  | _ :: _, [] => false
  | a :: as, b :: bs => a == b && litMatchesAt as bs

def litSearch (pat : List Char) : List Char → Nat → Option Nat
  | [], j => if litMatchesAt pat [] then some j else none
  | c :: t2, j => if litMatchesAt pat (c :: t2) then some j else litSearch pat t2 (j + 1)

/-- Modelled from the spec: the compiled form of an escaped literal,
case-sensitive keyword under the host engine — from scan position `i`,
find the first occurrence of the keyword and report it, or fail when the
scan position is past the end. -/
def execLit (pat : String) : ExecFn := fun text i =>
  if text.length < i then none
  else
    match litSearch pat.data (text.data.drop i) i with
    | none => none
    | some j => some (j, pat)

/-- A demonstration engine: on nonempty text it is the literal "a"
matcher, on empty text it keeps reporting a zero-width match at index 0
(which trips the non-termination guard). -/
def discardDemoExec : ExecFn := fun text i =>
  if text.length = 0 then some (0, "") else execLit "a" text i

theorem gScanLoop_guard {α : Type} (exec : ExecFn) (text : String) (mkItem : Nat → String → α)
    (lim fuel : Nat) (items : List α) (lastPos : Int) (lastIndex idx : Nat) (m : String)
    (h1 : exec text lastIndex = some (idx, m)) (h2 : (idx : Int) = lastPos) :
    gScanLoop exec text mkItem lim (fuel + 1) items lastPos lastIndex = none := by
  simp [gScanLoop, h1, h2]

theorem gScanLoop_fuel {α : Type} (exec : ExecFn) (hwf : wfExec exec) (text : String)
    (mkItem : Nat → String → α) (lim : Nat) :
    ∀ (fuel1 fuel2 : Nat) (items : List α) (lastPos : Int) (lastIndex : Nat),
    lastPos ≤ (lastIndex : Int) →
    (text.length : Int) - lastPos < (fuel1 : Int) →
    (text.length : Int) - lastPos < (fuel2 : Int) →
    gScanLoop exec text mkItem lim fuel1 items lastPos lastIndex =
      gScanLoop exec text mkItem lim fuel2 items lastPos lastIndex := by
  intro fuel1
  induction fuel1 with
  | zero =>
    intro fuel2 items lastPos lastIndex hpi h1 h2
    have hnone : exec text lastIndex = none := by
      cases hexec : exec text lastIndex with
      | none => rfl
      | some r =>
        obtain ⟨idx, m⟩ := r
        have := hwf text lastIndex idx m hexec
        exfalso
        omega
    cases fuel2 with
    | zero => rfl
    | succ f2 => simp [gScanLoop, hnone]
  | succ f ih =>
    intro fuel2 items lastPos lastIndex hpi h1 h2
    cases fuel2 with
    | zero =>
      have hnone : exec text lastIndex = none := by
        cases hexec : exec text lastIndex with
        | none => rfl
        | some r =>
          obtain ⟨idx, m⟩ := r
          have := hwf text lastIndex idx m hexec
          exfalso
          omega
      simp [gScanLoop, hnone]
    | succ f2 =>
      simp only [gScanLoop]
      cases hexec : exec text lastIndex with
      | none => rfl
      | some r =>
        obtain ⟨idx, m⟩ := r
        obtain ⟨hgei, hlen⟩ := hwf text lastIndex idx m hexec
        simp only
        by_cases hguard : (idx : Int) = lastPos
        · simp [hguard]
        · rw [if_neg hguard, if_neg hguard]
          by_cases hcap : 0 < lim ∧ lim ≤ (items ++ [mkItem idx m]).length
          · rw [if_pos hcap, if_pos hcap]
          · rw [if_neg hcap, if_neg hcap]
            apply ih
            · exact_mod_cast Int.ofNat_le.mpr (Nat.le_add_right idx m.length)
            · omega
            · omega

theorem gScanLoop_succ_some {α : Type} (exec : ExecFn) (text : String)
    (mkItem : Nat → String → α) (lim fuel : Nat) (items : List α) (lastPos : Int)
    (lastIndex idx : Nat) (m : String) (h : exec text lastIndex = some (idx, m)) :
    gScanLoop exec text mkItem lim (fuel + 1) items lastPos lastIndex =
      if (idx : Int) = lastPos then none
      else if 0 < lim ∧ lim ≤ (items ++ [mkItem idx m]).length then some (items ++ [mkItem idx m])
      else gScanLoop exec text mkItem lim fuel (items ++ [mkItem idx m]) (idx : Int)
        (idx + m.length) := by
  simp only [gScanLoop, h]

theorem gScanLoop_dotStar {α : Type} (text : String) (mkItem : Nat → String → α)
    (items : List α) :
    gScanLoop dotStarExec text mkItem 0 (text.length + 2) items (-1) 0 = none := by
  have hx0 : dotStarExec text 0 = some (0, ⟨text.data⟩) := by
    simp [dotStarExec]
  have hdrop : text.data.drop text.length = [] := by
    apply List.drop_of_length_le
    exact le_refl _
  have hxn : dotStarExec text text.length = some (text.length, ⟨[]⟩) := by
    simp [dotStarExec, hdrop]
  have hmk : (String.mk text.data).length = text.length := rfl
  have hmk0 : (String.mk ([] : List Char)).length = 0 := rfl
  cases hN : text.length with
  | zero =>
    have hd0 : text.data = [] := by
      have hlen : text.data.length = 0 := hN
      exact List.length_eq_zero.mp hlen
    simp [gScanLoop, dotStarExec, hd0, hN]
  | succ k =>
    show gScanLoop dotStarExec text mkItem 0 ((k + 2) + 1) items (-1) 0 = none
    rw [gScanLoop_succ_some dotStarExec text mkItem 0 (k + 2) items (-1) 0 0 ⟨text.data⟩ hx0]
    rw [if_neg (by omega : ¬((0 : Nat) : Int) = (-1 : Int))]
    rw [if_neg (by simp)]
    rw [show (0 : Nat) + (String.mk text.data).length = k + 1 from by rw [Nat.zero_add, hmk, hN]]
    have hxk : dotStarExec text (k + 1) = some (k + 1, ⟨[]⟩) := by
      rw [← hN]
      exact hxn
    show gScanLoop dotStarExec text mkItem 0 ((k + 1) + 1) _ ((0 : Nat) : Int) (k + 1) = none
    rw [gScanLoop_succ_some dotStarExec text mkItem 0 (k + 1) _ ((0 : Nat) : Int) (k + 1)
      (k + 1) ⟨[]⟩ hxk]
    rw [if_neg (by omega : ¬((k + 1 : Nat) : Int) = ((0 : Nat) : Int))]
    rw [if_neg (by simp)]
    rw [show (k + 1) + (String.mk ([] : List Char)).length = k + 1 from by rw [hmk0]]
    show gScanLoop dotStarExec text mkItem 0 (k + 1) _ ((k + 1 : Nat) : Int) (k + 1) = none
    exact gScanLoop_guard dotStarExec text mkItem 0 k _ _ (k + 1) (k + 1) ⟨[]⟩ hxk rfl

theorem findScan_dotStar (blocks : List PartialTextContent) :
    findScan dotStarExec blocks 0 = [] := by
  cases blocks with
  | nil => rfl
  | cons b bs =>
    have habort := gScanLoop_dotStar b.textContent
      (fun idx m => (⟨idx + b.offset, idx + b.offset + m.length, m⟩ : MatchItem))
      ([] : List MatchItem)
    simp [findScan, findBlocks, scanBlockLoop, habort]

theorem fmkPatterns_dotStar (text : String) (extra : Nat) :
    ∀ (pats1 pats2 : List ExecFn) (acc : List SubMatchItem),
    fmkPatterns text extra 0 (pats1 ++ dotStarExec :: pats2) acc = none := by
  intro pats1
  induction pats1 with
  | nil =>
    intro pats2 acc
    have hx0 : dotStarExec text 0 = some (0, ⟨text.data⟩) := by
      simp [dotStarExec]
    have habort := gScanLoop_dotStar text
      (fun idx m => (⟨idx + extra, m⟩ : SubMatchItem)) acc
    simp [fmkPatterns, hx0, fmkPatternLoop, habort]
  | cons p ps ih =>
    intro pats2 acc
    simp only [List.cons_append, fmkPatterns]
    cases hp : p text 0 with
    | none => rfl
    | some r =>
      cases hq : fmkPatternLoop p text extra 0 (text.length + 2) acc (-1) 0 with
      | none => rfl
      | some acc1 => exact ih pats2 acc1

/-- C3: the scans terminate by construction (each loop is a total
function, and with a well-formed engine the result does not depend on the
fuel once it exceeds `length + 1`); whenever an advance of the pattern
reports the same match start index as the previous advance, the loop
aborts (`none`) and the whole call returns the empty sequence, discarding
matches already collected — including matches from earlier blocks; in
particular a "match zero or more of any character" regex keyword makes
`find` (and a corresponding pattern makes `findMultipleKeywords`) return
the empty sequence instead of hanging. -/
theorem C3_guard_and_termination :
    (∀ (exec : ExecFn) (text : String) (offset lim fuel : Nat) (items : List MatchItem)
        (lastPos : Int) (lastIndex idx : Nat) (m : String),
      exec text lastIndex = some (idx, m) → (idx : Int) = lastPos →
      scanBlockLoop exec text offset lim (fuel + 1) items lastPos lastIndex = none)
    ∧ (∀ (exec : ExecFn) (blocks : List PartialTextContent) (lim : Nat),
        findBlocks exec lim blocks [] = none → findScan exec blocks lim = [])
    ∧ (∀ (exec : ExecFn) (text : String) (extra lim fuel : Nat) (items : List SubMatchItem)
        (lastPos : Int) (lastIndex idx : Nat) (m : String),
      exec text lastIndex = some (idx, m) → (idx : Int) = lastPos →
      fmkPatternLoop exec text extra lim (fuel + 1) items lastPos lastIndex = none)
    ∧ (∀ (exec : ExecFn), wfExec exec →
        ∀ (text : String) (offset lim fuel1 fuel2 : Nat) (items : List MatchItem),
        (text.length : Int) + 1 < (fuel1 : Int) → (text.length : Int) + 1 < (fuel2 : Int) →
        scanBlockLoop exec text offset lim fuel1 items (-1) 0 =
          scanBlockLoop exec text offset lim fuel2 items (-1) 0)
    ∧ (∀ (blocks : List PartialTextContent) (keyword : String) (cs ww rx : Bool),
        keyword ≠ "" →
        find (fun _ _ => some dotStarExec) blocks keyword cs ww rx 0 = .ok [])
    ∧ (∀ (pats1 pats2 : List ExecFn) (text : String) (extra : Nat),
        findMultipleKeywords text (pats1 ++ dotStarExec :: pats2) extra 0 = [])
    ∧ findScan discardDemoExec [⟨0, "a"⟩] 0 = [⟨0, 1, "a"⟩]
    ∧ findScan discardDemoExec [⟨0, "a"⟩, ⟨10, ""⟩] 0 = [] := by
  refine ⟨?_, ?_, ?_, ?_, ?_, ?_, by decide, by decide⟩
  · intro exec text offset lim fuel items lastPos lastIndex idx m h1 h2
    exact gScanLoop_guard exec text _ lim fuel items lastPos lastIndex idx m h1 h2
  · intro exec blocks lim h
    simp [findScan, h]
  · intro exec text extra lim fuel items lastPos lastIndex idx m h1 h2
    exact gScanLoop_guard exec text _ lim fuel items lastPos lastIndex idx m h1 h2
  · intro exec hwf text offset lim fuel1 fuel2 items h1 h2
    exact gScanLoop_fuel exec hwf text _ lim fuel1 fuel2 items (-1) 0 (by omega)
      (by omega) (by omega)
  · intro blocks keyword cs ww rx hk
    rw [find, if_neg hk]
    show Except.ok (findScan dotStarExec blocks 0) = _
    rw [findScan_dotStar]
  · intro pats1 pats2 text extra
    rw [findMultipleKeywords, fmkPatterns_dotStar]

/-- C3 witness: the guard, the fuel independence, and the
zero-width-pattern behaviour at concrete inputs. -/
theorem C3_guard_and_termination_witness :
    scanBlockLoop (fun _ _ => some (0, "")) "" 0 0 1 [] 0 0 = none ∧
    scanBlockLoop (fun _ _ => none) "" 0 0 5 [] (-1) 0 =
      scanBlockLoop (fun _ _ => none) "" 0 0 9 [] (-1) 0 ∧
    find (fun _ _ => some dotStarExec) [⟨0, "ab"⟩] "x" true false true 0 = .ok [] ∧
    findMultipleKeywords "ab" ([] ++ dotStarExec :: []) 0 0 = [] ∧
    findScan discardDemoExec [⟨0, "a"⟩, ⟨10, ""⟩] 0 = [] := by
  refine ⟨?_, ?_, ?_, ?_, ?_⟩
  · exact C3_guard_and_termination.1 (fun _ _ => some (0, "")) "" 0 0 0 [] 0 0 0 "" rfl rfl
  · exact C3_guard_and_termination.2.2.2.1 (fun _ _ => none)
      (fun t i idx m h => absurd h (by simp)) "" 0 0 5 9 [] (by decide) (by decide)
  · exact C3_guard_and_termination.2.2.2.2.1 [⟨0, "ab"⟩] "x" true false true (by decide)
  · exact C3_guard_and_termination.2.2.2.2.2.1 [] [] "ab" 0
  · exact C3_guard_and_termination.2.1 discardDemoExec [⟨0, "a"⟩, ⟨10, ""⟩] 0 (by decide)

theorem gScanLoop_succ_none {α : Type} (exec : ExecFn) (text : String)
    (mkItem : Nat → String → α) (lim fuel : Nat) (items : List α) (lastPos : Int)
    (lastIndex : Nat) (h : exec text lastIndex = none) :
    gScanLoop exec text mkItem lim (fuel + 1) items lastPos lastIndex = some items := by
  simp only [gScanLoop, h]

/-- Modelled from the spec: the external line splitter
(`TextLineReader.getLineTextSelections` from the jstextlinereader package,
which is not part of this repository) — "given a text, returns ordered,
non-overlapping line ranges (relative start/end, terminator excluded)";
the terminator is modelled as a single newline character. -/
def lineSelAux : List Char → Nat → Nat → List (Nat × Nat)
  | [], start, i => [(start, i)]
  | c :: rest, start, i =>
    if c = '\n' then (start, i) :: lineSelAux rest (i + 1) (i + 1)
    else lineSelAux rest start (i + 1)

def getLineTextSelections (s : String) : List (Nat × Nat) :=
  lineSelAux s.data 0 0

/-- Modelled from the spec: the text of one line, terminator excluded
(`TextLineReader.getTextLineByTextSelection` followed by the TextLine's
`textContent` accessor). -/
def getLineTextContent (s : String) (sel : Nat × Nat) : String :=
  jsSubstring s sel.1 sel.2

/-- The pattern string built by
`TextFindAndReplace.buildFindLineTextRegex`: always the escaped keyword,
word-boundary wrapped when requested. -/
def buildFindLineTextRegexPattern (keyword : String) (isWholeWord : Bool) : String :=
  let pattern := escapeRegularExpress keyword
  if isWholeWord then "\\b" ++ pattern ++ "\\b" else pattern

/-- The flags string built by `TextFindAndReplace.buildFindLineTextRegex`:
`'g'`, plus `'i'` when not case sensitive. -/
def buildFindLineTextRegexFlags (isCaseSensitive : Bool) : String :=
  if isCaseSensitive then "g" else "gi"

/-- `TextFindAndReplace.buildFindLineTextRegex`, parametrised by the host
engine. -/
def buildFindLineTextRegex (engine : String → String → Option ExecFn) (keyword : String)
    (isCaseSensitive isWholeWord : Bool) : Option ExecFn :=
  engine (buildFindLineTextRegexPattern keyword isWholeWord)
    (buildFindLineTextRegexFlags isCaseSensitive)

/-- The line loop of `TextFindAndReplace.findLines` over one block:
blank lines are skipped; a line qualifies when all exclude keywords are
absent and (no include keywords were requested, judged by the length of
the original keyword list, or the include sub-match search is
non-empty). -/
def findLinesLines (includeRegexies excludeRegexies : List ExecFn)
    (includeCount maxMatchLimit blockOffset : Nat) (blockText : String) :
    List (Nat × Nat) → List LineMatchItem → List LineMatchItem
  | [], lineMatchItems => lineMatchItems
  | sel :: sels, lineMatchItems =>
    let lineWholePositionStart := blockOffset + sel.1
    let lineWholePositionEnd := blockOffset + sel.2
    let lineTextContent := getLineTextContent blockText sel
    if lineTextContent = "" then
      findLinesLines includeRegexies excludeRegexies includeCount maxMatchLimit
        blockOffset blockText sels lineMatchItems
    else
      let subMatchItems := findMultipleKeywords lineTextContent includeRegexies
        lineWholePositionStart maxMatchLimit
      if isAllKeywordsExcluded lineTextContent excludeRegexies
          ∧ (includeCount = 0 ∨ 0 < subMatchItems.length) then
        let lineMatchItems1 := lineMatchItems ++
          [⟨lineWholePositionStart, lineWholePositionEnd, lineTextContent, subMatchItems⟩]
        if 0 < maxMatchLimit ∧ maxMatchLimit ≤ lineMatchItems1.length then lineMatchItems1
        else findLinesLines includeRegexies excludeRegexies includeCount maxMatchLimit
          blockOffset blockText sels lineMatchItems1
      else
        findLinesLines includeRegexies excludeRegexies includeCount maxMatchLimit
          blockOffset blockText sels lineMatchItems

/-- The block loop of `TextFindAndReplace.findLines`. -/
def findLinesBlocks (includeRegexies excludeRegexies : List ExecFn)
    (includeCount maxMatchLimit : Nat) :
    List PartialTextContent → List LineMatchItem → List LineMatchItem
  | [], lineMatchItems => lineMatchItems
  | b :: bs, lineMatchItems =>
    if 0 < maxMatchLimit ∧ maxMatchLimit ≤ lineMatchItems.length then lineMatchItems
    else
      findLinesBlocks includeRegexies excludeRegexies includeCount maxMatchLimit bs
        (findLinesLines includeRegexies excludeRegexies includeCount maxMatchLimit
          b.offset b.textContent (getLineTextSelections b.textContent) lineMatchItems)

/-- `TextFindAndReplace.findLines`, parametrised by the host engine. -/
def findLines (engine : String → String → Option ExecFn) (blocks : List PartialTextContent)
    (includeKeywords excludeKeywords : List String) (isCaseSensitive isWholeWord : Bool)
    (maxMatchLimit : Nat) : Except String (List LineMatchItem) :=
  if includeKeywords.length = 0 ∧ excludeKeywords.length = 0 then
    .error "The keywords cannot be all empty."
  else
    let includeRegexies := includeKeywords.filterMap fun keyword =>
      buildFindLineTextRegex engine keyword isCaseSensitive isWholeWord
    let excludeRegexies := excludeKeywords.filterMap fun keyword =>
      buildFindLineTextRegex engine keyword isCaseSensitive isWholeWord
    if includeRegexies.length = 0 ∧ excludeRegexies.length = 0 then .ok []
    else .ok (findLinesBlocks includeRegexies excludeRegexies includeKeywords.length
      maxMatchLimit blocks [])

/-- Modelled from the spec: the host `new RegExp` constructor, restricted
to the fragment needed for concrete instantiations — a pattern that is a
plain case-sensitive literal (no metacharacters, so escaping is the
identity, and no ignore-case flag) compiles to the literal matcher;
anything outside this fragment is not modelled and yields `none`. -/
def litEngine : String → String → Option ExecFn := fun pattern flags =>
  if (pattern.data.any fun c => regexMetaChars.contains c) || flags.data.contains 'i' then none
  else some (execLit pattern)

theorem gScanLoop_bound {α : Type} (exec : ExecFn) (text : String) (mkItem : Nat → String → α)
    (lim : Nat) (hlim : 0 < lim) :
    ∀ (fuel : Nat) (items : List α) (lastPos : Int) (lastIndex : Nat) (res : List α),
    items.length < lim →
    gScanLoop exec text mkItem lim fuel items lastPos lastIndex = some res →
    res.length ≤ lim := by
  intro fuel
  induction fuel with
  | zero =>
    intro items lastPos lastIndex res hin hres
    cases hres
    omega
  | succ f ih =>
    intro items lastPos lastIndex res hin hres
    rw [gScanLoop] at hres
    cases hexec : exec text lastIndex with
    | none =>
      rw [hexec] at hres
      cases hres
      omega
    | some r =>
      obtain ⟨idx, m⟩ := r
      rw [hexec] at hres
      simp only at hres
      by_cases hguard : (idx : Int) = lastPos
      · rw [if_pos hguard] at hres
        cases hres
      · rw [if_neg hguard] at hres
        by_cases hcap : 0 < lim ∧ lim ≤ (items ++ [mkItem idx m]).length
        · rw [if_pos hcap] at hres
          cases hres
          simp
          omega
        · rw [if_neg hcap] at hres
          apply ih _ _ _ _ _ hres
          simp at hcap ⊢
          omega

theorem gScanLoop_bound_loose {α : Type} (exec : ExecFn) (text : String)
    (mkItem : Nat → String → α) (lim : Nat) (hlim : 0 < lim) :
    ∀ (fuel : Nat) (items : List α) (lastPos : Int) (lastIndex : Nat) (res : List α),
    gScanLoop exec text mkItem lim fuel items lastPos lastIndex = some res →
    res.length ≤ max (items.length + 1) lim := by
  intro fuel
  induction fuel with
  | zero =>
    intro items lastPos lastIndex res hres
    cases hres
    omega
  | succ f ih =>
    intro items lastPos lastIndex res hres
    rw [gScanLoop] at hres
    cases hexec : exec text lastIndex with
    | none =>
      rw [hexec] at hres
      cases hres
      omega
    | some r =>
      obtain ⟨idx, m⟩ := r
      rw [hexec] at hres
      simp only at hres
      by_cases hguard : (idx : Int) = lastPos
      · rw [if_pos hguard] at hres
        cases hres
      · rw [if_neg hguard] at hres
        by_cases hcap : 0 < lim ∧ lim ≤ (items ++ [mkItem idx m]).length
        · rw [if_pos hcap] at hres
          cases hres
          simp
        · rw [if_neg hcap] at hres
          have := ih _ _ _ _ hres
          simp at hcap this ⊢
          omega

theorem findBlocks_bound (exec : ExecFn) (lim : Nat) (hlim : 0 < lim) :
    ∀ (blocks : List PartialTextContent) (items res : List MatchItem),
    items.length ≤ lim →
    findBlocks exec lim blocks items = some res →
    res.length ≤ lim := by
  intro blocks
  induction blocks with
  | nil =>
    intro items res hin hres
    cases hres
    exact hin
  | cons b bs ih =>
    intro items res hin hres
    rw [findBlocks] at hres
    by_cases hcap : 0 < lim ∧ lim ≤ items.length
    · rw [if_pos hcap] at hres
      cases hres
      exact hin
    · rw [if_neg hcap] at hres
      cases hscan : scanBlockLoop exec b.textContent b.offset lim
          (b.textContent.length + 2) items (-1) 0 with
      | none =>
        rw [hscan] at hres
        cases hres
      | some items1 =>
        rw [hscan] at hres
        simp only at hres
        have h1 : items1.length ≤ lim := by
          apply gScanLoop_bound exec b.textContent _ lim hlim _ items (-1) 0 items1 _ hscan
          simp at hcap
          omega
        exact ih items1 res h1 hres

theorem insertByOffset_length (x : SubMatchItem) (l : List SubMatchItem) :
    (insertByOffset x l).length = l.length + 1 := by
  induction l with
  | nil => rfl
  | cons y ys ih =>
    rw [insertByOffset]
    split
    · simp
    · simp [ih]

theorem sortByOffset_length (l : List SubMatchItem) :
    (sortByOffset l).length = l.length := by
  induction l with
  | nil => rfl
  | cons x xs ih => rw [sortByOffset, insertByOffset_length, ih]; rfl

theorem fmkPatterns_bound (text : String) (extra lim : Nat) (hlim : 0 < lim) :
    ∀ (pats : List ExecFn) (acc res : List SubMatchItem),
    fmkPatterns text extra lim pats acc = some res →
    res.length ≤ max acc.length (lim - 1) + pats.length := by
  intro pats
  induction pats with
  | nil =>
    intro acc res hres
    cases hres
    simp
  | cons p ps ih =>
    intro acc res hres
    rw [fmkPatterns] at hres
    cases hp : p text 0 with
    | none =>
      rw [hp] at hres
      cases hres
    | some r =>
      rw [hp] at hres
      simp only at hres
      cases hq : fmkPatternLoop p text extra lim (text.length + 2) acc (-1) 0 with
      | none =>
        rw [hq] at hres
        cases hres
      | some acc1 =>
        rw [hq] at hres
        simp only at hres
        have h1 : acc1.length ≤ max (acc.length + 1) lim :=
          gScanLoop_bound_loose p text _ lim hlim _ acc (-1) 0 acc1 hq
        have h2 := ih acc1 res hres
        simp
        simp at h1 h2
        omega

theorem findLinesLines_bound (incs excs : List ExecFn) (cnt lim off : Nat) (btext : String)
    (hlim : 0 < lim) :
    ∀ (sels : List (Nat × Nat)) (acc : List LineMatchItem),
    acc.length < lim →
    (findLinesLines incs excs cnt lim off btext sels acc).length ≤ lim := by
  intro sels
  induction sels with
  | nil =>
    intro acc hin
    rw [findLinesLines]
    omega
  | cons sel ss ih =>
    intro acc hin
    rw [findLinesLines]
    by_cases hblank : getLineTextContent btext sel = ""
    · rw [if_pos hblank]
      exact ih acc hin
    · rw [if_neg hblank]
      by_cases hqual : isAllKeywordsExcluded (getLineTextContent btext sel) excs
          ∧ (cnt = 0 ∨ 0 < (findMultipleKeywords (getLineTextContent btext sel) incs
              (off + sel.1) lim).length)
      · rw [if_pos hqual]
        by_cases hcap : 0 < lim ∧ lim ≤ (acc ++
            [(⟨off + sel.1, off + sel.2, getLineTextContent btext sel,
              findMultipleKeywords (getLineTextContent btext sel) incs
                (off + sel.1) lim⟩ : LineMatchItem)]).length
        · rw [if_pos hcap]
          simp
          omega
        · rw [if_neg hcap]
          apply ih
          simp at hcap
          simp
          omega
      · rw [if_neg hqual]
        exact ih acc hin

theorem findLinesBlocks_bound (incs excs : List ExecFn) (cnt lim : Nat) (hlim : 0 < lim) :
    ∀ (blocks : List PartialTextContent) (acc : List LineMatchItem),
    acc.length ≤ lim →
    (findLinesBlocks incs excs cnt lim blocks acc).length ≤ lim := by
  intro blocks
  induction blocks with
  | nil =>
    intro acc hin
    exact hin
  | cons b bs ih =>
    intro acc hin
    rw [findLinesBlocks]
    by_cases hcap : 0 < lim ∧ lim ≤ acc.length
    · rw [if_pos hcap]
      exact hin
    · rw [if_neg hcap]
      apply ih
      apply findLinesLines_bound _ _ _ _ _ _ hlim
      simp at hcap
      omega

theorem gScanLoop_acc {α : Type} (exec : ExecFn) (text : String) (mkItem : Nat → String → α) :
    ∀ (fuel : Nat) (items : List α) (lastPos : Int) (lastIndex : Nat),
    gScanLoop exec text mkItem 0 fuel items lastPos lastIndex
      = Option.map (fun l => items ++ l) (gScanLoop exec text mkItem 0 fuel [] lastPos lastIndex) := by
  intro fuel
  induction fuel with
  | zero => intro items lastPos lastIndex; simp [gScanLoop]
  | succ f ih =>
    intro items lastPos lastIndex
    simp only [gScanLoop]
    cases hexec : exec text lastIndex with
    | none => simp
    | some r =>
      obtain ⟨idx, m⟩ := r
      simp only
      by_cases hguard : (idx : Int) = lastPos
      · simp [hguard]
      · rw [if_neg hguard, if_neg hguard]
        rw [if_neg (by simp), if_neg (by simp)]
        rw [ih (items ++ [mkItem idx m]), ih ([] ++ [mkItem idx m])]
        cases gScanLoop exec text mkItem 0 f [] (idx : Int) (idx + m.length) with
        | none => simp
        | some l => simp

theorem scanBlockLoop_litA (acc : List MatchItem) :
    scanBlockLoop (execLit "a") "a" 0 0 ("a".length + 2) acc (-1) 0 =
      some (acc ++ [⟨0, 1, "a"⟩]) := by
  show gScanLoop (execLit "a") "a" (fun idx m => ⟨idx + 0, idx + 0 + m.length, m⟩) 0
    ("a".length + 2) acc (-1) 0 = some (acc ++ [⟨0, 1, "a"⟩])
  rw [gScanLoop_acc]
  rw [show gScanLoop (execLit "a") "a"
      (fun idx m => (⟨idx + 0, idx + 0 + m.length, m⟩ : MatchItem)) 0
      ("a".length + 2) [] (-1) 0 = some [⟨0, 1, "a"⟩] from by decide]
  rfl

theorem findBlocks_litA : ∀ (k : Nat) (acc : List MatchItem),
    findBlocks (execLit "a") 0 (List.replicate k ⟨0, "a"⟩) acc
      = some (acc ++ List.replicate k (⟨0, 1, "a"⟩ : MatchItem)) := by
  intro k
  induction k with
  | zero => intro acc; simp [findBlocks]
  | succ n ih =>
    intro acc
    rw [List.replicate_succ, findBlocks]
    rw [if_neg (by simp)]
    simp [scanBlockLoop_litA, ih, List.replicate_succ]

theorem findScan_litA (k : Nat) :
    (findScan (execLit "a") (List.replicate k ⟨0, "a"⟩) 0).length = k := by
  rw [findScan, findBlocks_litA k []]
  simp

/-- C4 counterexample: with `maxMatchLimit = 1` and two include patterns,
`findMultipleKeywords` returns 2 sub-match items — each pattern pushes one
item before the cap is consulted, so the cap does not bound the result of
`findMultipleKeywords` as claimed. -/
theorem C4_cex_fmk_exceeds_limit :
    (findMultipleKeywords "ab" [execLit "a", execLit "b"] 0 1).length = 2 ∧
    ¬ ((findMultipleKeywords "ab" [execLit "a", execLit "b"] 0 1).length ≤ 1) := by
  exact ⟨by decide, by decide⟩

/-- C4 (amended): for `N > 0` the sequences returned by `find` and
`findLines` have length at most `N`; `findMultipleKeywords` is only
bounded by `N + (number of patterns) - 1`, because each pattern appends
one item before the cap is checked; `maxMatchLimit = 0` imposes no
bound. -/
theorem C4_max_match_limit :
    (∀ (engine : String → String → Option ExecFn) (blocks : List PartialTextContent)
        (keyword : String) (cs ww rx : Bool) (lim : Nat) (res : List MatchItem),
      0 < lim → find engine blocks keyword cs ww rx lim = .ok res → res.length ≤ lim)
    ∧ (∀ (engine : String → String → Option ExecFn) (blocks : List PartialTextContent)
        (inc exc : List String) (cs ww : Bool) (lim : Nat) (res : List LineMatchItem),
      0 < lim → findLines engine blocks inc exc cs ww lim = .ok res → res.length ≤ lim)
    ∧ (∀ (text : String) (pats : List ExecFn) (extra lim : Nat),
      0 < lim → (findMultipleKeywords text pats extra lim).length ≤ lim + pats.length - 1)
    ∧ (∀ n : Nat, ∃ blocks : List PartialTextContent,
        n < (findScan (execLit "a") blocks 0).length) := by
  refine ⟨?_, ?_, ?_, ?_⟩
  · intro engine blocks keyword cs ww rx lim res hlim hres
    rw [find] at hres
    split at hres
    · cases hres
    · cases hbuild : buildFindTextRegex engine keyword cs ww rx with
      | none =>
        rw [hbuild] at hres
        cases hres
        simp
      | some exec =>
        rw [hbuild] at hres
        cases hres
        rw [findScan]
        cases hblocks : findBlocks exec lim blocks [] with
        | none => simp
        | some l =>
          simp only
          exact findBlocks_bound exec lim hlim blocks [] l (by simp) hblocks
  · intro engine blocks inc exc cs ww lim res hlim hres
    simp only [findLines] at hres
    split at hres
    · cases hres
    · split at hres
      · cases hres
        simp
      · cases hres
        exact findLinesBlocks_bound _ _ _ _ hlim blocks [] (by simp)
  · intro text pats extra lim hlim
    rw [findMultipleKeywords]
    cases hres : fmkPatterns text extra lim pats [] with
    | none => simp
    | some acc =>
      simp only
      rw [sortByOffset_length]
      have := fmkPatterns_bound text extra lim hlim pats [] acc hres
      simp at this
      omega
  · intro n
    refine ⟨List.replicate (n + 1) ⟨0, "a"⟩, ?_⟩
    rw [findScan_litA]
    omega

/-- C4 witness: the amended bounds evaluated at concrete inputs. -/
theorem C4_max_match_limit_witness :
    ([(⟨0, 1, "a"⟩ : MatchItem)].length ≤ 1) ∧
    (findMultipleKeywords "ab" [execLit "a", execLit "b"] 0 1).length
      ≤ 1 + [execLit "a", execLit "b"].length - 1 := by
  constructor
  · exact C4_max_match_limit.1 litEngine [⟨0, "a"⟩] "a" true false false 1 [⟨0, 1, "a"⟩]
      (by decide) (by rfl)
  · exact C4_max_match_limit.2.2.1 "ab" [execLit "a", execLit "b"] 0 1 (by decide)

theorem mem_insertByOffset (z x : SubMatchItem) (l : List SubMatchItem) :
    z ∈ insertByOffset x l ↔ z = x ∨ z ∈ l := by
  induction l with
  | nil => simp [insertByOffset]
  | cons y ys ih =>
    rw [insertByOffset]
    split
    · simp
    · simp [ih]
      tauto

theorem insertByOffset_pairwise (x : SubMatchItem) (l : List SubMatchItem)
    (h : List.Pairwise (fun a b => a.offset ≤ b.offset) l) :
    List.Pairwise (fun a b => a.offset ≤ b.offset) (insertByOffset x l) := by
  induction l with
  | nil => simp [insertByOffset]
  | cons y ys ih =>
    rw [insertByOffset]
    obtain ⟨hy, hys⟩ := List.pairwise_cons.mp h
    split
    · refine List.pairwise_cons.mpr ⟨?_, h⟩
      intro z hz
      rcases List.mem_cons.mp hz with hz | hz
      · subst hz
        omega
      · have := hy z hz
        omega
    · refine List.pairwise_cons.mpr ⟨?_, ih hys⟩
      intro z hz
      rcases (mem_insertByOffset z x ys).mp hz with hz | hz
      · subst hz
        omega
      · exact hy z hz

theorem sortByOffset_sorted (l : List SubMatchItem) :
    List.Pairwise (fun a b => a.offset ≤ b.offset) (sortByOffset l) := by
  induction l with
  | nil => simp [sortByOffset]
  | cons x xs ih => exact insertByOffset_pairwise x (sortByOffset xs) ih

theorem litMatchesAt_length (pat : List Char) :
    ∀ t : List Char, litMatchesAt pat t = true → pat.length ≤ t.length := by
  induction pat with
  | nil => intro t _; simp
  | cons a as ih =>
    intro t h
    cases t with
    | nil => simp [litMatchesAt] at h
    | cons b bs =>
      simp only [litMatchesAt, Bool.and_eq_true] at h
      have := ih bs h.2
      simp
      omega

theorem litSearch_spec (pat : List Char) :
    ∀ (t : List Char) (j r : Nat), litSearch pat t j = some r →
    j ≤ r ∧ r + pat.length ≤ j + t.length := by
  intro t
  induction t with
  | nil =>
    intro j r h
    rw [litSearch] at h
    split at h
    · cases h
      have h0 : pat.length ≤ 0 := litMatchesAt_length pat [] (by assumption)
      omega
    · cases h
  | cons c t2 ih =>
    intro j r h
    rw [litSearch] at h
    have hlc : (c :: t2).length = t2.length + 1 := rfl
    split at h
    · cases h
      have h0 : pat.length ≤ t2.length + 1 := litMatchesAt_length pat (c :: t2) (by assumption)
      omega
    · have := ih (j + 1) r h
      omega

theorem wfExec_execLit (pat : String) : wfExec (execLit pat) := by
  intro text i idx m h
  rw [execLit] at h
  split at h
  · cases h
  · rename_i hle
    cases hs : litSearch pat.data (text.data.drop i) i with
    | none =>
      rw [hs] at h
      cases h
    | some j =>
      rw [hs] at h
      cases h
      have hspec := litSearch_spec pat.data (text.data.drop i) i idx hs
      have hdl : (text.data.drop i).length = text.data.length - i := List.length_drop i text.data
      have hlen : text.data.length = text.length := rfl
      have hp : pat.length = pat.data.length := rfl
      constructor
      · omega
      · show idx + pat.length ≤ text.length
        omega

theorem wfLitEngine : ∀ (p f : String) (e : ExecFn), litEngine p f = some e → wfExec e := by
  intro p f e he
  rw [litEngine] at he
  split at he
  · cases he
  · cases he
    exact wfExec_execLit p

theorem chain_blocks_le :
    ∀ (b : PartialTextContent) (bs : List PartialTextContent),
    List.Chain' (fun a b => a.offset + a.textContent.length ≤ b.offset) (b :: bs) →
    ∀ b2 ∈ bs, b.offset + b.textContent.length ≤ b2.offset := by
  intro b bs
  induction bs generalizing b with
  | nil => intro _ b2 h2; cases h2
  | cons b1 bs1 ih =>
    intro hchain b2 h2
    have h01 := List.chain'_cons.mp hchain
    rcases List.mem_cons.mp h2 with h2 | h2
    · subst h2
      exact h01.1
    · have := ih b1 h01.2 b2 h2
      omega

theorem scanBlockLoop_sorted (exec : ExecFn) (hwf : wfExec exec) (text : String)
    (offset lim : Nat) :
    ∀ (fuel : Nat) (items : List MatchItem) (lastPos : Int) (lastIndex : Nat)
      (res : List MatchItem),
    lastIndex ≤ text.length →
    (∀ a ∈ items, a.endPos ≤ offset + lastIndex) →
    (∀ a ∈ items, a.start ≤ a.endPos) →
    List.Pairwise (fun a b => a.endPos ≤ b.start) items →
    scanBlockLoop exec text offset lim fuel items lastPos lastIndex = some res →
    List.Pairwise (fun a b => a.endPos ≤ b.start) res ∧
    (∀ a ∈ res, a.start ≤ a.endPos) ∧
    (∀ a ∈ res, a.endPos ≤ offset + text.length) := by
  intro fuel
  induction fuel with
  | zero =>
    intro items lastPos lastIndex res hli hend hse hp hres
    cases hres
    exact ⟨hp, hse, fun a ha => le_trans (hend a ha) (by omega)⟩
  | succ f ih =>
    intro items lastPos lastIndex res hli hend hse hp hres
    unfold scanBlockLoop at hres
    rw [gScanLoop] at hres
    cases hexec : exec text lastIndex with
    | none =>
      rw [hexec] at hres
      cases hres
      exact ⟨hp, hse, fun a ha => le_trans (hend a ha) (by omega)⟩
    | some r =>
      obtain ⟨idx, m⟩ := r
      rw [hexec] at hres
      simp only at hres
      obtain ⟨hge, hin⟩ := hwf text lastIndex idx m hexec
      by_cases hguard : (idx : Int) = lastPos
      · rw [if_pos hguard] at hres
        cases hres
      · rw [if_neg hguard] at hres
        have hend1 : ∀ a ∈ items ++ [(⟨idx + offset, idx + offset + m.length, m⟩ : MatchItem)],
            a.endPos ≤ offset + (idx + m.length) := by
          intro a ha
          rcases List.mem_append.mp ha with ha | ha
          · have := hend a ha
            omega
          · simp at ha
            subst ha
            simp
            omega
        have hse1 : ∀ a ∈ items ++ [(⟨idx + offset, idx + offset + m.length, m⟩ : MatchItem)],
            a.start ≤ a.endPos := by
          intro a ha
          rcases List.mem_append.mp ha with ha | ha
          · exact hse a ha
          · simp at ha
            subst ha
            simp
        have hp1 : List.Pairwise (fun a b => a.endPos ≤ b.start)
            (items ++ [(⟨idx + offset, idx + offset + m.length, m⟩ : MatchItem)]) := by
          rw [List.pairwise_append]
          refine ⟨hp, by simp, ?_⟩
          intro a ha b hb
          simp at hb
          subst hb
          have := hend a ha
          show a.endPos ≤ idx + offset
          omega
        by_cases hcap : 0 < lim ∧
            lim ≤ (items ++ [(⟨idx + offset, idx + offset + m.length, m⟩ : MatchItem)]).length
        · rw [if_pos hcap] at hres
          cases hres
          exact ⟨hp1, hse1, fun a ha => le_trans (hend1 a ha) (by omega)⟩
        · rw [if_neg hcap] at hres
          exact ih _ idx (idx + m.length) res (by omega) hend1 hse1 hp1 hres

theorem findBlocks_sorted (exec : ExecFn) (hwf : wfExec exec) (lim : Nat) :
    ∀ (blocks : List PartialTextContent) (items res : List MatchItem),
    List.Chain' (fun a b => a.offset + a.textContent.length ≤ b.offset) blocks →
    (∀ a ∈ items, a.start ≤ a.endPos) →
    List.Pairwise (fun a b => a.endPos ≤ b.start) items →
    (∀ a ∈ items, ∀ b ∈ blocks, a.endPos ≤ b.offset) →
    findBlocks exec lim blocks items = some res →
    List.Pairwise (fun a b => a.endPos ≤ b.start) res ∧ (∀ a ∈ res, a.start ≤ a.endPos) := by
  intro blocks
  induction blocks with
  | nil =>
    intro items res _ hse hp _ hres
    cases hres
    exact ⟨hp, hse⟩
  | cons b bs ih =>
    intro items res hchain hse hp hoff hres
    rw [findBlocks] at hres
    by_cases hcap : 0 < lim ∧ lim ≤ items.length
    · rw [if_pos hcap] at hres
      cases hres
      exact ⟨hp, hse⟩
    · rw [if_neg hcap] at hres
      cases hscan : scanBlockLoop exec b.textContent b.offset lim
          (b.textContent.length + 2) items (-1) 0 with
      | none =>
        rw [hscan] at hres
        cases hres
      | some items1 =>
        rw [hscan] at hres
        simp only at hres
        obtain ⟨hp1, hse1, hend1⟩ := scanBlockLoop_sorted exec hwf b.textContent b.offset lim
          _ items (-1) 0 items1 (Nat.zero_le _)
          (by intro a ha; have := hoff a ha b (List.mem_cons_self _ _); omega)
          hse hp hscan
        apply ih items1 res hchain.tail hse1 hp1 _ hres
        intro a ha b2 hb2
        have h1 := hend1 a ha
        have h2 := chain_blocks_le b bs hchain b2 hb2
        omega

/-- C8 counterexample: two include keywords "ab" and "b" on the line "ab"
produce sub-match items at offsets 0 (length 2) and 1 (length 1) — sorted
by offset, but overlapping, so the claimed mutual non-overlap of
`findMultipleKeywords` results is false. -/
theorem C8_cex_submatch_overlap :
    findMultipleKeywords "ab" [execLit "ab", execLit "b"] 0 0
      = [⟨0, "ab"⟩, ⟨1, "b"⟩] ∧
    ¬ List.Pairwise (fun a b => a.offset + a.textContent.length ≤ b.offset)
      (findMultipleKeywords "ab" [execLit "ab", execLit "b"] 0 0) := by
  exact ⟨by decide, by decide⟩

/-- C8 (amended): every match sequence returned by `find` (with a
well-formed engine and blocks given non-overlapping in position order) is
sorted ascending by start with mutually non-overlapping matches; every
sequence returned by `findMultipleKeywords` is sorted ascending by
offset, but its items may overlap (see the counterexample). -/
theorem C8_sorted_nonoverlapping :
    (∀ (engine : String → String → Option ExecFn) (blocks : List PartialTextContent)
        (keyword : String) (cs ww rx : Bool) (lim : Nat) (res : List MatchItem),
      (∀ (p f : String) (e : ExecFn), engine p f = some e → wfExec e) →
      List.Chain' (fun a b => a.offset + a.textContent.length ≤ b.offset) blocks →
      find engine blocks keyword cs ww rx lim = .ok res →
      List.Pairwise (fun a b => a.endPos ≤ b.start) res ∧
      List.Pairwise (fun a b => a.start ≤ b.start) res)
    ∧ (∀ (text : String) (pats : List ExecFn) (extra lim : Nat),
        List.Pairwise (fun a b => a.offset ≤ b.offset)
          (findMultipleKeywords text pats extra lim)) := by
  constructor
  · intro engine blocks keyword cs ww rx lim res hengine hchain hres
    rw [find] at hres
    split at hres
    · cases hres
    · cases hbuild : buildFindTextRegex engine keyword cs ww rx with
      | none =>
        rw [hbuild] at hres
        cases hres
        exact ⟨List.Pairwise.nil, List.Pairwise.nil⟩
      | some exec =>
        rw [hbuild] at hres
        cases hres
        have hwf : wfExec exec := hengine _ _ exec hbuild
        rw [findScan]
        cases hblocks : findBlocks exec lim blocks [] with
        | none => exact ⟨List.Pairwise.nil, List.Pairwise.nil⟩
        | some l =>
          simp only
          obtain ⟨hp, hse⟩ := findBlocks_sorted exec hwf lim blocks [] l hchain
            (by simp) List.Pairwise.nil (by simp) hblocks
          refine ⟨hp, ?_⟩
          apply List.Pairwise.imp_of_mem _ hp
          intro a b ha _ hab
          have := hse a ha
          omega
  · intro text pats extra lim
    rw [findMultipleKeywords]
    cases fmkPatterns text extra lim pats [] with
    | none => exact List.Pairwise.nil
    | some acc =>
      simp only
      exact sortByOffset_sorted acc

/-- C8 witness: the amended ordering facts evaluated at concrete inputs. -/
theorem C8_sorted_nonoverlapping_witness :
    List.Pairwise (fun a b => a.endPos ≤ b.start) [(⟨0, 1, "a"⟩ : MatchItem)] ∧
    List.Pairwise (fun a b => a.start ≤ b.start) [(⟨0, 1, "a"⟩ : MatchItem)] :=
  C8_sorted_nonoverlapping.1 litEngine [⟨0, "a"⟩] "a" true false false 0 [⟨0, 1, "a"⟩]
    wfLitEngine (by simp) (by rfl)

/-- The line-qualification characterisation of `findLines` (the claim's
"if and only if" reading, with no match cap): every line of every block
produces a Line Match Item exactly when its terminator-excluded text is
non-empty, no exclude pattern matches, and either no include keywords
were requested or the include search returns a non-empty sequence. -/
def findLinesChar (incs excs : List ExecFn) (includeCount : Nat)
    (blocks : List PartialTextContent) : List LineMatchItem :=
  blocks.flatMap fun b =>
    (getLineTextSelections b.textContent).filterMap fun sel =>
      let lineText := getLineTextContent b.textContent sel
      let subs := findMultipleKeywords lineText incs (b.offset + sel.1) 0
      if lineText ≠ "" ∧ isAllKeywordsExcluded lineText excs
          ∧ (includeCount = 0 ∨ subs ≠ []) then
        some ⟨b.offset + sel.1, b.offset + sel.2, lineText, subs⟩
      else none

theorem findLinesLines_char (incs excs : List ExecFn) (cnt off : Nat) (btext : String) :
    ∀ (sels : List (Nat × Nat)) (acc : List LineMatchItem),
    findLinesLines incs excs cnt 0 off btext sels acc
      = acc ++ sels.filterMap fun sel =>
          let lineText := getLineTextContent btext sel
          let subs := findMultipleKeywords lineText incs (off + sel.1) 0
          if lineText ≠ "" ∧ isAllKeywordsExcluded lineText excs
              ∧ (cnt = 0 ∨ subs ≠ []) then
            some ⟨off + sel.1, off + sel.2, lineText, subs⟩
          else none := by
  intro sels
  induction sels with
  | nil => intro acc; simp [findLinesLines]
  | cons sel ss ih =>
    intro acc
    rw [findLinesLines, List.filterMap_cons]
    simp only
    by_cases hblank : getLineTextContent btext sel = ""
    · rw [if_pos hblank]
      rw [if_neg (by simp [hblank])]
      exact ih acc
    · rw [if_neg hblank]
      by_cases hqual : isAllKeywordsExcluded (getLineTextContent btext sel) excs
          ∧ (cnt = 0 ∨ 0 < (findMultipleKeywords (getLineTextContent btext sel) incs
              (off + sel.1) 0).length)
      · rw [if_pos hqual]
        rw [if_neg (by simp)]
        rw [if_pos ⟨hblank, hqual.1, by
          rcases hqual.2 with h | h
          · exact Or.inl h
          · exact Or.inr (List.length_pos.mp h)⟩]
        rw [ih]
        simp
      · rw [if_neg hqual]
        rw [if_neg (by
          intro hcond
          apply hqual
          refine ⟨hcond.2.1, ?_⟩
          rcases hcond.2.2 with h | h
          · exact Or.inl h
          · exact Or.inr (List.length_pos.mpr h))]
        exact ih acc

theorem findLinesBlocks_char (incs excs : List ExecFn) (cnt : Nat) :
    ∀ (blocks : List PartialTextContent) (acc : List LineMatchItem),
    findLinesBlocks incs excs cnt 0 blocks acc = acc ++ findLinesChar incs excs cnt blocks := by
  intro blocks
  induction blocks with
  | nil => intro acc; simp [findLinesBlocks, findLinesChar]
  | cons b bs ih =>
    intro acc
    rw [findLinesBlocks]
    rw [if_neg (by simp)]
    rw [ih, findLinesLines_char]
    simp [findLinesChar]

theorem length_filterMap_all_some {α β : Type} (f : α → Option β) (l : List α)
    (h : ∀ x ∈ l, (f x).isSome) : (l.filterMap f).length = l.length := by
  induction l with
  | nil => rfl
  | cons x xs ih =>
    rw [List.filterMap_cons]
    cases hx : f x with
    | none =>
      have := h x (List.mem_cons_self _ _)
      rw [hx] at this
      cases this
    | some y =>
      simp only [List.length_cons]
      rw [ih (fun z hz => h z (List.mem_cons_of_mem _ hz))]

theorem findLines_char (engine : String → String → Option ExecFn)
    (blocks : List PartialTextContent) (inc exc : List String) (cs ww : Bool)
    (hne : ¬(inc.length = 0 ∧ exc.length = 0))
    (hinc : ∀ kw ∈ inc, (buildFindLineTextRegex engine kw cs ww).isSome)
    (hexc : ∀ kw ∈ exc, (buildFindLineTextRegex engine kw cs ww).isSome) :
    findLines engine blocks inc exc cs ww 0 =
      .ok (findLinesChar (inc.filterMap fun kw => buildFindLineTextRegex engine kw cs ww)
        (exc.filterMap fun kw => buildFindLineTextRegex engine kw cs ww)
        inc.length blocks) := by
  rw [findLines, if_neg hne]
  simp only
  rw [if_neg (by
    rw [length_filterMap_all_some _ _ hinc, length_filterMap_all_some _ _ hexc]
    exact hne)]
  rw [findLinesBlocks_char]
  simp

theorem findMultipleKeywords_nil_patterns (text : String) (extra lim : Nat) :
    findMultipleKeywords text [] extra lim = [] := rfl

theorem findLinesLines_items_prop (P : LineMatchItem → Prop) (incs excs : List ExecFn)
    (cnt lim off : Nat) (btext : String)
    (hnew : ∀ sel : Nat × Nat, getLineTextContent btext sel ≠ "" →
      P ⟨off + sel.1, off + sel.2, getLineTextContent btext sel,
        findMultipleKeywords (getLineTextContent btext sel) incs (off + sel.1) lim⟩) :
    ∀ (sels : List (Nat × Nat)) (acc : List LineMatchItem),
    (∀ i ∈ acc, P i) →
    ∀ i ∈ findLinesLines incs excs cnt lim off btext sels acc, P i := by
  intro sels
  induction sels with
  | nil => intro acc hacc; exact hacc
  | cons sel ss ih =>
    intro acc hacc
    rw [findLinesLines]
    by_cases hblank : getLineTextContent btext sel = ""
    · rw [if_pos hblank]
      exact ih acc hacc
    · rw [if_neg hblank]
      by_cases hqual : isAllKeywordsExcluded (getLineTextContent btext sel) excs
          ∧ (cnt = 0 ∨ 0 < (findMultipleKeywords (getLineTextContent btext sel) incs
              (off + sel.1) lim).length)
      · rw [if_pos hqual]
        have hacc1 : ∀ i ∈ acc ++ [(⟨off + sel.1, off + sel.2, getLineTextContent btext sel,
            findMultipleKeywords (getLineTextContent btext sel) incs
              (off + sel.1) lim⟩ : LineMatchItem)], P i := by
          intro i hi
          rcases List.mem_append.mp hi with hi | hi
          · exact hacc i hi
          · simp at hi
            subst hi
            exact hnew sel hblank
        show ∀ i ∈ (if 0 < lim ∧ lim ≤ (acc ++ [(⟨off + sel.1, off + sel.2,
            getLineTextContent btext sel,
            findMultipleKeywords (getLineTextContent btext sel) incs
              (off + sel.1) lim⟩ : LineMatchItem)]).length then
            acc ++ [(⟨off + sel.1, off + sel.2, getLineTextContent btext sel,
              findMultipleKeywords (getLineTextContent btext sel) incs
                (off + sel.1) lim⟩ : LineMatchItem)]
          else findLinesLines incs excs cnt lim off btext ss
            (acc ++ [(⟨off + sel.1, off + sel.2, getLineTextContent btext sel,
              findMultipleKeywords (getLineTextContent btext sel) incs
                (off + sel.1) lim⟩ : LineMatchItem)])), P i
        split
        · exact hacc1
        · exact ih _ hacc1
      · rw [if_neg hqual]
        exact ih acc hacc

theorem findLinesBlocks_items_prop (P : LineMatchItem → Prop) (incs excs : List ExecFn)
    (cnt lim : Nat)
    (hnew : ∀ (b : PartialTextContent) (sel : Nat × Nat),
      getLineTextContent b.textContent sel ≠ "" →
      P ⟨b.offset + sel.1, b.offset + sel.2, getLineTextContent b.textContent sel,
        findMultipleKeywords (getLineTextContent b.textContent sel) incs
          (b.offset + sel.1) lim⟩) :
    ∀ (blocks : List PartialTextContent) (acc : List LineMatchItem),
    (∀ i ∈ acc, P i) →
    ∀ i ∈ findLinesBlocks incs excs cnt lim blocks acc, P i := by
  intro blocks
  induction blocks with
  | nil => intro acc hacc; exact hacc
  | cons b bs ih =>
    intro acc hacc
    rw [findLinesBlocks]
    split
    · exact hacc
    · exact ih _ (findLinesLines_items_prop P incs excs cnt lim b.offset b.textContent
        (hnew b) _ acc hacc)

theorem fmkPatterns_firstmatch (text : String) (extra lim : Nat) :
    ∀ (pats : List ExecFn) (acc res : List SubMatchItem),
    fmkPatterns text extra lim pats acc = some res →
    ∀ p ∈ pats, p text 0 ≠ none := by
  intro pats
  induction pats with
  | nil => intro acc res _ p hp; cases hp
  | cons q qs ih =>
    intro acc res hres p hp
    rw [fmkPatterns] at hres
    cases hq : q text 0 with
    | none =>
      rw [hq] at hres
      cases hres
    | some r =>
      rw [hq] at hres
      simp only at hres
      cases hloop : fmkPatternLoop q text extra lim (text.length + 2) acc (-1) 0 with
      | none =>
        rw [hloop] at hres
        cases hres
      | some acc1 =>
        rw [hloop] at hres
        rcases List.mem_cons.mp hp with hp | hp
        · subst hp
          rw [hq]
          intro h
          cases h
        · exact ih acc1 res hres p hp

/-- C5: with no match cap, `findLines` returns exactly the lines whose
terminator-excluded text is non-empty, with no exclude pattern matching,
and with either no include keywords requested or a non-empty include
sub-match sequence (provided every keyword compiles); a non-empty
sub-match sequence requires every include pattern to match at least once;
a line with empty text never yields a Line Match Item; a line containing
"a" but not "b" yields nothing for includeKeywords ["a", "b"]. -/
theorem C5_findLines_qualification :
    (∀ (engine : String → String → Option ExecFn) (blocks : List PartialTextContent)
        (inc exc : List String) (cs ww : Bool),
      ¬(inc.length = 0 ∧ exc.length = 0) →
      (∀ kw ∈ inc, (buildFindLineTextRegex engine kw cs ww).isSome) →
      (∀ kw ∈ exc, (buildFindLineTextRegex engine kw cs ww).isSome) →
      findLines engine blocks inc exc cs ww 0 =
        .ok (findLinesChar
          (inc.filterMap fun kw => buildFindLineTextRegex engine kw cs ww)
          (exc.filterMap fun kw => buildFindLineTextRegex engine kw cs ww)
          inc.length blocks))
    ∧ (∀ (engine : String → String → Option ExecFn) (blocks : List PartialTextContent)
        (inc exc : List String) (cs ww : Bool) (lim : Nat) (res : List LineMatchItem),
      findLines engine blocks inc exc cs ww lim = .ok res →
      ∀ item ∈ res, item.textContent ≠ "")
    ∧ (∀ (text : String) (pats : List ExecFn) (extra lim : Nat),
      findMultipleKeywords text pats extra lim ≠ [] →
      ∀ p ∈ pats, p text 0 ≠ none)
    ∧ findLines litEngine [⟨0, "xay"⟩] ["a", "b"] [] true false 0 = .ok [] := by
  refine ⟨?_, ?_, ?_, by rfl⟩
  · intro engine blocks inc exc cs ww hne hinc hexc
    exact findLines_char engine blocks inc exc cs ww hne hinc hexc
  · intro engine blocks inc exc cs ww lim res hres item hitem
    simp only [findLines] at hres
    split at hres
    · cases hres
    · split at hres
      · cases hres
        cases hitem
      · cases hres
        exact findLinesBlocks_items_prop (fun i => i.textContent ≠ "") _ _ _ _
          (fun b sel hb => hb) blocks [] (by simp) item hitem
  · intro text pats extra lim hne p hp
    rw [findMultipleKeywords] at hne
    cases hres : fmkPatterns text extra lim pats [] with
    | none =>
      rw [hres] at hne
      simp at hne
    | some acc =>
      exact fmkPatterns_firstmatch text extra lim pats [] acc hres p hp

/-- C5 witness: the characterisation and the non-empty-line fact evaluated
at a concrete input. -/
theorem C5_findLines_qualification_witness :
    findLines litEngine [⟨0, "a"⟩] ["a"] [] true false 0 =
      .ok (findLinesChar
        (["a"].filterMap fun kw => buildFindLineTextRegex litEngine kw true false)
        (([] : List String).filterMap fun kw => buildFindLineTextRegex litEngine kw true false)
        (["a"] : List String).length [⟨0, "a"⟩]) :=
  C5_findLines_qualification.1 litEngine [⟨0, "a"⟩] ["a"] [] true false
    (by decide) (by decide) (by decide)

/-- C9: `find` raises the invalid-argument error exactly when the keyword
is empty, and `findLines` exactly when both keyword lists are empty; a
keyword that fails to compile never raises — `find` returns an empty
sequence, and `findLines` drops the offending patterns, returning the
empty sequence when no keyword in either set compiles and otherwise
scanning with the compiled subsets. -/
theorem C9_error_conditions :
    (∀ (engine : String → String → Option ExecFn) (blocks : List PartialTextContent)
        (kw : String) (cs ww rx : Bool) (lim : Nat),
      (∃ e, find engine blocks kw cs ww rx lim = .error e) ↔ kw = "")
    ∧ (∀ (engine : String → String → Option ExecFn) (blocks : List PartialTextContent)
        (inc exc : List String) (cs ww : Bool) (lim : Nat),
      (∃ e, findLines engine blocks inc exc cs ww lim = .error e) ↔ (inc = [] ∧ exc = []))
    ∧ (∀ (engine : String → String → Option ExecFn) (blocks : List PartialTextContent)
        (kw : String) (cs ww rx : Bool) (lim : Nat),
      kw ≠ "" → buildFindTextRegex engine kw cs ww rx = none →
      find engine blocks kw cs ww rx lim = .ok [])
    ∧ (∀ (engine : String → String → Option ExecFn) (blocks : List PartialTextContent)
        (inc exc : List String) (cs ww : Bool) (lim : Nat),
      ¬(inc = [] ∧ exc = []) →
      (∀ kw ∈ inc ++ exc, buildFindLineTextRegex engine kw cs ww = none) →
      findLines engine blocks inc exc cs ww lim = .ok [])
    ∧ (∀ (engine : String → String → Option ExecFn) (blocks : List PartialTextContent)
        (inc exc : List String) (cs ww : Bool) (lim : Nat),
      ¬(inc = [] ∧ exc = []) →
      (∃ kw ∈ inc ++ exc, (buildFindLineTextRegex engine kw cs ww).isSome) →
      findLines engine blocks inc exc cs ww lim =
        .ok (findLinesBlocks
          (inc.filterMap fun kw => buildFindLineTextRegex engine kw cs ww)
          (exc.filterMap fun kw => buildFindLineTextRegex engine kw cs ww)
          inc.length lim blocks [])) := by
  refine ⟨?_, ?_, ?_, ?_, ?_⟩
  · intro engine blocks kw cs ww rx lim
    constructor
    · rintro ⟨e, he⟩
      by_cases hk : kw = ""
      · exact hk
      · rw [find, if_neg hk] at he
        cases hbuild : buildFindTextRegex engine kw cs ww rx with
        | none => rw [hbuild] at he; cases he
        | some exec => rw [hbuild] at he; cases he
    · intro hk
      subst hk
      exact ⟨"The keyword cannot be empty.", rfl⟩
  · intro engine blocks inc exc cs ww lim
    constructor
    · rintro ⟨e, he⟩
      simp only [findLines] at he
      split at he
      · rename_i hcond
        exact ⟨List.length_eq_zero.mp hcond.1, List.length_eq_zero.mp hcond.2⟩
      · split at he
        · cases he
        · cases he
    · rintro ⟨h1, h2⟩
      subst h1
      subst h2
      exact ⟨"The keywords cannot be all empty.", rfl⟩
  · intro engine blocks kw cs ww rx lim hk hbuild
    rw [find, if_neg hk, hbuild]
  · intro engine blocks inc exc cs ww lim hne hall
    rw [findLines]
    rw [if_neg (by
      intro h
      exact hne ⟨List.length_eq_zero.mp h.1, List.length_eq_zero.mp h.2⟩)]
    simp only
    rw [if_pos ⟨by
        rw [List.length_eq_zero, List.filterMap_eq_nil_iff]
        intro kw hkw
        exact hall kw (List.mem_append.mpr (Or.inl hkw)), by
        rw [List.length_eq_zero, List.filterMap_eq_nil_iff]
        intro kw hkw
        exact hall kw (List.mem_append.mpr (Or.inr hkw))⟩]
  · intro engine blocks inc exc cs ww lim hne hsome
    rw [findLines]
    rw [if_neg (by
      intro h
      exact hne ⟨List.length_eq_zero.mp h.1, List.length_eq_zero.mp h.2⟩)]
    simp only
    rw [if_neg (by
      rintro ⟨h1, h2⟩
      obtain ⟨kw, hkw, hks⟩ := hsome
      rw [List.length_eq_zero, List.filterMap_eq_nil_iff] at h1 h2
      rcases List.mem_append.mp hkw with hkw | hkw
      · rw [h1 kw hkw] at hks
        cases hks
      · rw [h2 kw hkw] at hks
        cases hks)]

/-- C9 witness: the error conditions and the compile-failure behaviour at
concrete inputs. -/
theorem C9_error_conditions_witness :
    ((∃ e, find litEngine [] "" true true true 0 = .error e) ↔ ("" : String) = "") ∧
    find (fun _ _ => none) [⟨0, "a"⟩] "a" true false false 0 = .ok [] ∧
    findLines (fun _ _ => none) [⟨0, "a"⟩] ["a"] [] true false 0 = .ok [] ∧
    findLines litEngine [⟨0, "a"⟩] ["a"] [] true false 0 =
      .ok (findLinesBlocks
        (["a"].filterMap fun kw => buildFindLineTextRegex litEngine kw true false)
        (([] : List String).filterMap fun kw => buildFindLineTextRegex litEngine kw true false)
        (["a"] : List String).length 0 [⟨0, "a"⟩] []) := by
  refine ⟨?_, ?_, ?_, ?_⟩
  · exact C9_error_conditions.1 litEngine [] "" true true true 0
  · exact C9_error_conditions.2.2.1 (fun _ _ => none) [⟨0, "a"⟩] "a" true false false 0
      (by decide) rfl
  · exact C9_error_conditions.2.2.2.1 (fun _ _ => none) [⟨0, "a"⟩] ["a"] [] true false 0
      (by simp) (fun kw _ => rfl)
  · exact C9_error_conditions.2.2.2.2 litEngine [⟨0, "a"⟩] ["a"] [] true false 0
      (by simp) ⟨"a", by simp, by decide⟩

/-- C10: `findMultipleKeywords` with an empty compiled-pattern list
returns the empty sequence (the vacuous AND yields no sub-matches, not
everything); `findLines` nevertheless tests the length of the original
include-keyword list, so exclude-only searches still produce Line Match
Items, all of which carry an empty `subMatchItems` sequence. -/
theorem C10_vacuous_include :
    (∀ (text : String) (extra lim : Nat), findMultipleKeywords text [] extra lim = [])
    ∧ (∀ (engine : String → String → Option ExecFn) (blocks : List PartialTextContent)
        (exc : List String) (cs ww : Bool) (lim : Nat) (res : List LineMatchItem),
      findLines engine blocks [] exc cs ww lim = .ok res →
      ∀ item ∈ res, item.subMatchItems = [])
    ∧ (∀ (engine : String → String → Option ExecFn) (blocks : List PartialTextContent)
        (exc : List String) (cs ww : Bool),
      exc ≠ [] →
      (∀ kw ∈ exc, (buildFindLineTextRegex engine kw cs ww).isSome) →
      findLines engine blocks [] exc cs ww 0 =
        .ok (findLinesChar []
          (exc.filterMap fun kw => buildFindLineTextRegex engine kw cs ww) 0 blocks)) := by
  refine ⟨fun _ _ _ => rfl, ?_, ?_⟩
  · intro engine blocks exc cs ww lim res hres item hitem
    simp only [findLines] at hres
    split at hres
    · cases hres
    · split at hres
      · cases hres
        cases hitem
      · cases hres
        apply findLinesBlocks_items_prop (fun i => i.subMatchItems = []) _ _ _ _ _
          blocks [] (by simp) item hitem
        intro b sel _
        simp only [List.filterMap_nil]
        exact findMultipleKeywords_nil_patterns _ _ _
  · intro engine blocks exc cs ww hne hexc
    have h := findLines_char engine blocks [] exc cs ww
      (by intro h; exact hne (List.length_eq_zero.mp h.2))
      (by intro kw hkw; cases hkw) hexc
    simpa using h

/-- C10 witness: the exclude-only characterisation at a concrete input. -/
theorem C10_vacuous_include_witness :
    findLines litEngine [⟨0, "x"⟩] [] ["a"] true false 0 =
      .ok (findLinesChar []
        (["a"].filterMap fun kw => buildFindLineTextRegex litEngine kw true false)
        0 [⟨0, "x"⟩]) :=
  C10_vacuous_include.2.2 litEngine [⟨0, "x"⟩] ["a"] true false (by decide) (by decide)
